import Mathlib

/-!
Verification of the markdown/frontmatter parsing core of `index_recipes.py`
(the recipe indexer).  The Python source is embedded shallowly: strings are
Lean `String`s (lists of characters), the hand-rolled regular expressions are
translated to deterministic character-list functions (each regex in the source
is backtracking-free on its inputs, so the translation is exact and noted at
each definition), and the one place where the Python code can raise an
exception (`int(val)` under a `val.isdigit()` guard) is modelled with
`Except`.

Character-class caveat: Python's `str.isdigit`, `int`, `\s` and `\w` are
Unicode-aware.  The embedding restricts each class to the blocks that the
claims exercise (ASCII, plus the superscript/subscript digits, which are
exactly the characters on which `str.isdigit` and `int` disagree); all other
blocks behave like the representatives included here.
-/

/-- Whitespace test used by Python's `strip`/`rstrip` and by `\s` in its
regexes, restricted to the ASCII whitespace characters. -/
def pyIsSpace (c : Char) : Bool :=
  c == ' ' || c == '\t' || c == '\n' || c == '\r' || c == '\x0b' || c == '\x0c'

/-- Word-character test for `[\w_]` in `parse_frontmatter`'s key regex,
restricted to ASCII: letters, digits and underscore. -/
def pyIsWordChar (c : Char) : Bool :=
  c.isAlphanum || c == '_'

/-- Decimal-digit test: Unicode category Nd, the digits accepted by Python's
`int`.  Restricted to the ASCII digit block. -/
def pyIsDecimalDigit (c : Char) : Bool :=
  '0' ≤ c && c ≤ '9'

/-- Character-level model of Python's `str.isdigit`: true for characters of
Numeric_Type Decimal or Digit.  This is a strict superset of `pyIsDecimalDigit`:
the superscript and subscript digits have Numeric_Type Digit, so `isdigit`
accepts them although `int` does not. -/
def pyIsDigitChar (c : Char) : Bool :=
  pyIsDecimalDigit c ||
    c ∈ ['⁰', '¹', '²', '³', '⁴', '⁵', '⁶', '⁷', '⁸', '⁹',
         '₀', '₁', '₂', '₃', '₄', '₅', '₆', '₇', '₈', '₉']

/-- Model of Python's `str.isdigit` on a list of characters: non-empty and
every character passes `pyIsDigitChar`. -/
def pyIsDigitStr (s : List Char) : Bool :=
  !s.isEmpty && s.all pyIsDigitChar

/-- Python `str.lstrip()` (with no argument): drop leading whitespace. -/
def pyLstrip (l : List Char) : List Char :=
  l.dropWhile pyIsSpace

/-- Python `str.rstrip()` (with no argument): drop trailing whitespace. -/
def pyRstrip (l : List Char) : List Char :=
  (l.reverse.dropWhile pyIsSpace).reverse

/-- Python `str.strip()` (with no argument): drop whitespace at both ends. -/
def pyStrip (l : List Char) : List Char :=
  pyRstrip (pyLstrip l)

/-- Value of an ASCII decimal digit. -/
def digitVal (c : Char) : Nat :=
  c.toNat - '0'.toNat

/-- Accumulating digit reader for `pyInt`: decimal digits, with a single
underscore allowed between digits (as Python's `int` allows). -/
def pyIntCore : Nat → List Char → Option Nat
  | acc, [] => some acc
  | acc, '_' :: c :: cs =>
    if pyIsDecimalDigit c then pyIntCore (acc * 10 + digitVal c) cs else none
  | acc, c :: cs =>
    if pyIsDecimalDigit c then pyIntCore (acc * 10 + digitVal c) cs else none

/-- Digit-run reader for `pyInt`: requires at least one decimal digit. -/
def pyIntDigits : List Char → Option Nat
  | [] => none
  | c :: cs => if pyIsDecimalDigit c then pyIntCore (digitVal c) cs else none

/-- Model of Python's `int(str)`: optional surrounding whitespace, optional
sign, then decimal digits (category Nd) with optional single underscores
between digits.  Anything else raises `ValueError`, modelled as `none`.
In particular the superscript digits are *rejected* here although they are
accepted by `str.isdigit`. -/
def pyInt (s : List Char) : Option Int :=
  match pyStrip s with
  | '+' :: cs => (pyIntDigits cs).map Int.ofNat
  | '-' :: cs => (pyIntDigits cs).map (fun n => -(n : Int))
  | cs => (pyIntDigits cs).map Int.ofNat

/-- A frontmatter field value: Python stores either an `int`, a `str`, or a
list of `str` in the `metadata` dict of `parse_frontmatter`. -/
inductive FieldValue where
  | intVal : Int → FieldValue
  | strVal : String → FieldValue
  | listVal : List String → FieldValue
deriving DecidableEq

/-- Test whether a `FieldValue` is a list. -/
def FieldValue.isList : FieldValue → Bool
  | .listVal _ => true
  | _ => false

/-- The metadata mapping: an insertion-ordered association list, the shallow
model of the Python dict built by `parse_frontmatter`. -/
abbrev Metadata := List (String × FieldValue)

/-- Dict lookup: first entry with the given key. -/
def lookupKey : Metadata → String → Option FieldValue
  | [], _ => none
  | (k, v) :: rest, key => if k = key then some v else lookupKey rest key

/-- Dict assignment `metadata[key] = v`: overwrite in place if the key is
present (keeping its position, as Python dicts do), else append at the end. -/
def setKey : Metadata → String → FieldValue → Metadata
  | [], key, v => [(key, v)]
  | (k, w) :: rest, key, v =>
    if k = key then (key, v) :: rest else (k, w) :: setKey rest key v

/-- The list-item append of `parse_frontmatter`: initialize the key to `[]`
if absent, then `metadata[current_list_key].append(val)`.  If the key held a
non-list value the Python `.append` would raise `AttributeError`; that branch
is modelled as an error (it is unreachable from the parser's state machine,
but kept for faithfulness). -/
def appendItem (m : Metadata) (k : String) (v : String) : Except String Metadata :=
  match lookupKey m k with
  | none => .ok (setKey m k (.listVal [v]))
  | some (.listVal l) => .ok (setKey m k (.listVal (l ++ [v])))
  | some _ => .error "AttributeError"

/-- State of the line loop in `parse_frontmatter`: the accumulated metadata
dict and the `current_list_key` cursor. -/
structure FMState where
  metadata : Metadata
  currentListKey : Option String

/-- Python split on newline, keeping empty pieces; the empty string splits to
one empty piece. -/
def splitLines : List Char → List (List Char)
  | [] => [[]]
  | c :: cs =>
    if c = '\n' then [] :: splitLines cs
    else
      match splitLines cs with
      | [] => [[c]]
      | l :: ls => (c :: l) :: ls

/-- Scanner for the closing delimiter of the regex `^---\n(.*?)\n---` with
DOTALL: non-greedy, so the captured block ends at the *first* occurrence of a
newline followed by three hyphens.  Returns the capture, or `none` if no such
occurrence exists. -/
def findClose : List Char → Option (List Char)
  | [] => none
  | c :: cs =>
    if (['\n', '-', '-', '-']).isPrefixOf (c :: cs) then some []
    else (findClose cs).map (fun l => c :: l)

/-- Capture group of `re.match(r'^---\n(.*?)\n---', content, re.DOTALL)`:
the document must begin with the four characters `---\n` (so the first line is
exactly `---`), and the capture runs to the first later `\n---`. -/
def fmCapture (cs : List Char) : Option (List Char) :=
  if (['-', '-', '-', '\n']).isPrefixOf cs then findClose (cs.drop 4) else none

/-- Capture group of `re.match(r'^\s+-\s+(.*)', line)`: one or more whitespace
characters, a hyphen, one or more whitespace characters, then the rest of the
line.  Each `\s+` is followed by a non-whitespace literal, so the greedy
quantifiers are deterministic; the lines fed to this function contain no
newline, so `(.*)` is the whole remainder. -/
def listItemCapture (line : List Char) : Option (List Char) :=
  if line.takeWhile pyIsSpace = [] then none
  else
    match line.dropWhile pyIsSpace with
    | [] => none
    | c :: r =>
      if c = '-' then
        if r.takeWhile pyIsSpace = [] then none
        else some (r.dropWhile pyIsSpace)
      else none

/-- Capture groups of `re.match(r'^([\w_]+):\s*(.*)', line)`: a non-empty run
of word characters, a colon, optional whitespace, then the rest of the line.
Again the greedy runs are followed by literals outside their class, so the
match is deterministic. -/
def keyValueCapture (line : List Char) : Option (List Char × List Char) :=
  if line.takeWhile pyIsWordChar = [] then none
  else
    match line.dropWhile pyIsWordChar with
    | [] => none
    | c :: r =>
      if c = ':' then some (line.takeWhile pyIsWordChar, r.dropWhile pyIsSpace)
      else none

/-- The key-value block of the line loop: store an empty-valued key as the
start of a list, an all-digit value as an integer (raising `ValueError` when
Python's `int` rejects what `isdigit` accepted), any other value as a string;
lines matching neither pattern are ignored. -/
def processKeyValue (st : FMState) (line : List Char) : Except String FMState :=
  match keyValueCapture line with
  | some (key, valRaw) =>
    let val := pyStrip valRaw
    if val = [] then
      .ok ⟨setKey st.metadata (String.mk key) (.listVal []), some (String.mk key)⟩
    else if pyIsDigitStr val then
      match pyInt val with
      | some n => .ok ⟨setKey st.metadata (String.mk key) (.intVal n), none⟩
      | none => .error "invalid literal for int() with base 10"
    else
      .ok ⟨setKey st.metadata (String.mk key) (.strVal (String.mk val)), none⟩
  | none => .ok st

/-- One iteration of the `for line in lines` loop of `parse_frontmatter`:
rstrip the line, skip it if blank, append it to the active list if it is a
list item under an active list key, and otherwise run the key-value block. -/
def processLine (st : FMState) (rawLine : List Char) : Except String FMState :=
  let line := pyRstrip rawLine
  if line = [] then .ok st
  else
    match listItemCapture line, st.currentListKey with
    | some cap, some k =>
      Except.map (fun m => FMState.mk m (some k))
        (appendItem st.metadata k (String.mk (pyStrip cap)))
    | _, _ => processKeyValue st line

/-- The whole line loop, propagating the (unique possible) exception. -/
def processLines (st : FMState) : List (List Char) → Except String FMState
  | [] => .ok st
  | l :: ls =>
    match processLine st l with
    | .ok st' => processLines st' ls
    | .error e => .error e

/-- Model of `parse_frontmatter(content)`: returns the metadata mapping, or an
error when the Python function would raise. -/
def parse_frontmatter (content : String) : Except String Metadata :=
  match fmCapture content.data with
  | none => .ok []
  | some fmText =>
    match processLines ⟨[], none⟩ (splitLines fmText) with
    | .ok st => .ok st.metadata
    | .error e => .error e

/-- One attempt of `re.search(r'^#\s+(.+)$', content, re.MULTILINE)` at a
line-start position.  After the `#`, the greedy `\s+` (which, unlike `.`,
also matches newlines) takes the maximal whitespace run; if a non-whitespace
character follows, `(.+)$` captures the non-newline run from there.  If the
whole remainder is whitespace the engine backtracks: `.+` then matches the
last character of the run that is not a newline (provided at least one
whitespace character remains for `\s+`), and `$` holds after it. -/
def titleMatchAt (cs : List Char) : Option (List Char) :=
  match cs with
  | [] => none
  | c :: rest =>
    if c = '#' then
      if rest.takeWhile pyIsSpace = [] then none
      else
        match rest.dropWhile pyIsSpace with
        | [] =>
          match (rest.drop 1).reverse.dropWhile (fun d => d = '\n') with
          | [] => none
          | d :: _ => some [d]
        | a :: more => some ((a :: more).takeWhile (fun d => !(d = '\n')))
    else none

/-- Scan of `re.search(..., re.MULTILINE)`: the pattern is anchored with `^`,
so a match can only start at position 0 or just after a newline; the leftmost
match wins.  The flag records whether the current position is a line start. -/
def titleSearchAux : Bool → List Char → Option (List Char)
  | _, [] => none
  | atLineStart, c :: cs =>
    if atLineStart then
      match titleMatchAt (c :: cs) with
      | some t => some t
      | none => titleSearchAux (c = '\n') cs
    else titleSearchAux (c = '\n') cs

/-- Title search over a document, starting at position 0 (a line start). -/
def titleSearch (cs : List Char) : Option (List Char) :=
  titleSearchAux true cs

/-- Title extraction of `parse_markdown_file`: the stripped capture of the
first title match, or the caller-supplied fallback (in the source, the
filename with its extension removed). -/
def extract_title (content fallback : String) : String :=
  match titleSearch content.data with
  | some t => String.mk (pyStrip t)
  | none => fallback

/-- Case-insensitive character comparison for `re.IGNORECASE`. -/
def ciEqChar (a b : Char) : Bool :=
  a.toLower == b.toLower

/-- Case-insensitive "pat is a prefix of cs" test. -/
def ciPrefixOf : List Char → List Char → Bool
  | [], _ => true
  | _ :: _, [] => false
  | p :: ps, c :: cs => ciEqChar p c && ciPrefixOf ps cs

/-- The literal of the ingredients-section regex. -/
def ingredientsPat : List Char :=
  ['i', 'n', 'g', 'r', 'e', 'd', 'i', 'e', 'n', 't', 's']

/-- Leftmost (hence longest-suffix) case-insensitive occurrence of `pat`:
returns the suffix starting at the first occurrence.  Implements the
non-greedy `.*?Ingredients` step of the section regex. -/
def findSuffixCI (pat : List Char) : List Char → Option (List Char)
  | [] => if ciPrefixOf pat [] then some [] else none
  | c :: cs => if ciPrefixOf pat (c :: cs) then some (c :: cs) else findSuffixCI pat cs

/-- The non-greedy capture `(.*?)(?=\n##|\Z)` with DOTALL: everything up to
but excluding the first occurrence of newline-hash-hash, or the whole
remainder if there is none. -/
def captureUntilNlHashHash : List Char → List Char
  | [] => []
  | c :: cs =>
    if (['\n', '#', '#']).isPrefixOf (c :: cs) then []
    else c :: captureUntilNlHashHash cs

/-- One attempt of the section regex
`##\s+.*?Ingredients.*?\n(.*?)(?=\n##|\Z)` (DOTALL, IGNORECASE) at a given
position.  The pattern is unanchored, so the attempt position is arbitrary.
`\s+` needs one whitespace character after the two hashes; since an
occurrence of the (non-whitespace-initial) literal cannot begin inside the
whitespace run, the first `.*?` resolves to the earliest case-insensitive
occurrence of the literal, the second to the earliest newline after it, and
the capture runs to the first newline-hash-hash or the end. -/
def ingMatchAt (cs : List Char) : Option (List Char) :=
  match cs with
  | c1 :: c2 :: c3 :: rest =>
    if c1 = '#' ∧ c2 = '#' ∧ pyIsSpace c3 then
      match findSuffixCI ingredientsPat rest with
      | none => none
      | some t =>
        match (t.drop ingredientsPat.length).dropWhile (fun d => !(d = '\n')) with
        | [] => none
        | _ :: afterNl => some (captureUntilNlHashHash afterNl)
    else none
  | _ => none

/-- `re.search` for the section regex: try every position left to right. -/
def ingSearch : List Char → Option (List Char)
  | [] => none
  | c :: cs =>
    match ingMatchAt (c :: cs) with
    | some cap => some cap
    | none => ingSearch cs

/-- The substitution `re.sub(r'^-\s*\[.\]\s*', '', line)`: strip a leading
checkbox marker (hyphen, optional whitespace, a single bracketed character,
optional whitespace) if present, else return the line unchanged.  The `.`
cannot match a newline. -/
def stripCheckbox (line : List Char) : List Char :=
  match line with
  | '-' :: rest =>
    match rest.dropWhile pyIsSpace with
    | '[' :: x :: ']' :: r2 =>
      if x = '\n' then line else r2.dropWhile pyIsSpace
    | _ => line
  | _ => line

/-- The substitution `re.sub(r'^-\s*', '', line)`: strip a leading plain
bullet (hyphen, optional whitespace) if present. -/
def stripBullet (line : List Char) : List Char :=
  match line with
  | '-' :: rest => rest.dropWhile pyIsSpace
  | _ => line

/-- The cleaning loop over the raw ingredient lines: strip checkbox markup,
then bullet markup, then surrounding whitespace, and keep the line only if
non-empty. -/
def cleanLines : List (List Char) → List String
  | [] => []
  | line :: rest =>
    let c3 := pyStrip (stripBullet (stripCheckbox line))
    if c3 = [] then cleanLines rest
    else String.mk c3 :: cleanLines rest

/-- Ingredients extraction of `parse_markdown_file`: strip the captured
section, split it into lines and clean each line; no section means no
ingredients. -/
def extract_ingredients (content : String) : List String :=
  match ingSearch content.data with
  | none => []
  | some cap => cleanLines (splitLines (pyStrip cap))

/-- The fields of the per-file record assembled by `parse_markdown_file` that
come from the parsing core (filename and path metadata are pure I/O glue and
are not modelled).  `category` and `tags` keep the dynamic type the Python
dict gives them: whatever `frontmatter.get` returns. -/
structure RecipeRecord where
  title : String
  category : FieldValue
  tags : FieldValue
  ingredients : List String
deriving DecidableEq

/-- Model of `parse_markdown_file` on a document's text: run the frontmatter
parser (the only failing component), extract title and ingredients, and
default `category` and `tags` exactly as `frontmatter.get` does. -/
def parse_markdown (content fallbackTitle : String) : Except String RecipeRecord :=
  match parse_frontmatter content with
  | .error e => .error e
  | .ok fm =>
    .ok ⟨extract_title content fallbackTitle,
         (lookupKey fm ("category")).getD (.strVal ("Uncategorized")),
         (lookupKey fm ("tags")).getD (.listVal []),
         extract_ingredients content⟩

/-! ### Specification-side characterizations

The following definitions are written from the wording of the specification
and of the claims (not from the source); they exist to be compared with the
source-derived functions above. -/

/-- Claim C5's wording of the header shape: the document begins with a line
containing exactly `---`, followed by arbitrary lines, followed by a line
containing exactly `---`. -/
def hasExactlyDelimitedHeader (content : String) : Bool :=
  match splitLines content.data with
  | [] => false
  | first :: rest => first = ['-', '-', '-'] && rest.any (fun l => l = ['-', '-', '-'])

/-- The header shape the code actually requires (amended claim C5): the
document starts with the four characters `---\n`, and a newline followed by
three hyphens occurs somewhere after them. -/
def fmHeaderShape (content : String) : Bool :=
  (['-', '-', '-', '\n']).isPrefixOf content.data &&
    decide ((['\n', '-', '-', '-']) <:+: content.data.drop 4)

/-- Claim C8's wording of a title line: a line that starts with exactly one
hash followed by whitespace and text (all on that line). -/
def specLineIsTitle (line : List Char) : Bool :=
  match line with
  | '#' :: c :: rest => pyIsSpace c && !((c :: rest).dropWhile pyIsSpace).isEmpty
  | _ => false

/-- The trigger condition of the section regex at one position (amended claim
C4): two hashes followed by a whitespace character, a case-insensitive
occurrence of the literal `ingredients` somewhere at or after that point, and
a newline after the occurrence. -/
def ingTriggerAt (s : List Char) : Bool :=
  match s with
  | c1 :: c2 :: c3 :: rest =>
    (c1 = '#' && c2 = '#' && pyIsSpace c3) &&
      rest.tails.any fun t =>
        ciPrefixOf ingredientsPat t &&
          (t.drop ingredientsPat.length).any (fun d => d = '\n')
  | _ => false

/-- The trigger condition quantified over every position of the document. -/
def specIngTrigger (cs : List Char) : Bool :=
  cs.tails.any ingTriggerAt

/-! ### Concrete evaluations settling the claims that fail on the code -/

/-- C1: the claim says neither `parse_frontmatter` nor the body extraction can
fail on any input.  It is refuted by the header line `k: ²`: the superscript
two satisfies Python's `str.isdigit`, so the code calls `int(val)`, which
accepts only decimal digits and raises `ValueError`. -/
theorem c1_frontmatter_raises :
    parse_frontmatter ("---\nk: ²\n---") =
      Except.error ("invalid literal for int() with base 10") := rfl

/-- C6: the integer/string classification of scalar values.  `count: 42` is
stored as the integer 42 and `title: Soup` as the string Soup, as claimed; but
the claim's "otherwise the trimmed value as a string" fails for `n: ³`, where
the code raises `ValueError` instead of storing the string, because
`str.isdigit` accepts the superscript three while `int` rejects it. -/
theorem c6_scalar_classification :
    parse_frontmatter ("---\ncount: 42\n---") =
      Except.ok [(("count" : String), FieldValue.intVal 42)] ∧
    parse_frontmatter ("---\ntitle: Soup\n---") =
      Except.ok [(("title" : String), FieldValue.strVal ("Soup"))] ∧
    parse_frontmatter ("---\nn: ³\n---") =
      Except.error ("invalid literal for int() with base 10") :=
  ⟨rfl, rfl, rfl⟩

/-- C2 counterexample: the claim says the record's `tags` field is always a
list of strings.  For a header declaring `tags: dinner` the code stores the
bare string scalar (there is no coercion in `frontmatter.get('tags', [])`),
so the resulting record's `tags` is not a list. -/
theorem c2_counterexample :
    (Except.map (fun r => r.tags)
        (parse_markdown ("---\ntags: dinner\n---\nbody") ("fb"))) =
      Except.ok (FieldValue.strVal ("dinner")) ∧
    FieldValue.isList (FieldValue.strVal ("dinner")) = false :=
  ⟨rfl, rfl⟩

/-- C3 counterexample: the claim says an unindented item line such as `- a`
is appended like an indented one while list context is active.  In the code
the list-item regex is `^\s+-\s+(.*)`, whose leading `\s+` requires at least
one whitespace character, so the unindented `- a` matches neither the
list-item nor the key-value pattern and is silently dropped: `tags` stays
empty, while the indented variant is appended. -/
theorem c3_counterexample :
    parse_frontmatter ("---\ntags:\n- a\n---") =
      Except.ok [(("tags" : String), FieldValue.listVal [])] ∧
    parse_frontmatter ("---\ntags:\n - a\n---") =
      Except.ok [(("tags" : String), FieldValue.listVal [("a" : String)])] :=
  ⟨rfl, rfl⟩

/-- C4 counterexample: the claim says only a line that is a level-2 heading
(two hashes at the start of the line) can start an ingredients section, and
that `### Ingredients` or a mid-line `## Ingredients` does not.  The section
regex is unanchored, so it matches inside `### Ingredients` (at offset 1) and
in the middle of a line; both documents yield a non-empty ingredients list. -/
theorem c4_counterexample :
    extract_ingredients ("### Ingredients\n- Salt") = [("Salt" : String)] ∧
    extract_ingredients ("x ## Ingredients\n- Egg") = [("Egg" : String)] :=
  ⟨rfl, rfl⟩

/-- C5 counterexample: the claim says a non-empty mapping requires a closing
line containing exactly `---`.  The regex `^---\n(.*?)\n---` only requires a
newline followed by three hyphens, so a document closed by the line `---x`
has no exactly-`---` closing line (per the claim's own shape predicate) yet
parses to a non-empty mapping. -/
theorem c5_counterexample :
    hasExactlyDelimitedHeader ("---\na: b\n---x") = false ∧
    parse_frontmatter ("---\na: b\n---x") =
      Except.ok [(("a" : String), FieldValue.strVal ("b"))] :=
  ⟨rfl, rfl⟩

/-- C7 counterexample: the claim says the section runs up to but not
including the next line starting with two hashes.  The bounding lookahead is
`(?=\n##)`, which needs a newline before the hashes; a `## Instructions` line
immediately after the heading line is therefore *included* in the capture,
although the claim says the section text before it is empty. -/
theorem c7_counterexample :
    extract_ingredients ("## Ingredients\n## Instructions\nStuff") =
      [("## Instructions" : String), ("Stuff" : String)] ∧
    extract_ingredients ("## Ingredients\n## Instructions\nStuff") ≠
      ([] : List String) :=
  ⟨rfl, by decide⟩

/-- C8 counterexample: the claim says that when no single line starts with
exactly one hash followed by whitespace and text, the fallback is returned.
In `#\nHello` no line has that shape, yet the code returns the title `Hello`:
the `\s+` of `^#\s+(.+)$` matches the newline, so the captured text comes
from the following line. -/
theorem c8_counterexample :
    ((splitLines (("#\nHello").data)).all fun l => !(specLineIsTitle l)) = true ∧
    extract_title ("#\nHello") ("FALLBACK") = ("Hello") :=
  ⟨rfl, rfl⟩

/-! ### Supporting lemmas about stripping -/

/-- A list whose head fails the predicate is unchanged by `dropWhile`. -/
theorem dropWhile_eq_self_of_head {p : Char → Bool} {l : List Char} {c : Char}
    (hc : l.head? = some c) (hp : p c = false) : l.dropWhile p = l := by
  cases l with
  | nil => simp at hc
  | cons a as =>
    simp only [List.head?_cons, Option.some.injEq] at hc
    subst hc
    exact List.dropWhile_cons_of_neg (by simp [hp])

/-- `dropWhile` is idempotent. -/
theorem dropWhile_idem {p : Char → Bool} (l : List Char) :
    (l.dropWhile p).dropWhile p = l.dropWhile p := by
  cases hc : (l.dropWhile p).head? with
  | none => rw [List.head?_eq_none_iff] at hc; rw [hc]; rfl
  | some c =>
    have hp : p c = false := by
      have := List.head?_dropWhile_not p l
      rw [hc] at this
      exact this
    exact dropWhile_eq_self_of_head hc hp

/-- The reverse of `pyRstrip l` is the whitespace-dropped reverse of `l`. -/
theorem pyRstrip_reverse (l : List Char) :
    (pyRstrip l).reverse = l.reverse.dropWhile pyIsSpace := by
  simp [pyRstrip]

/-- `pyRstrip l` is a prefix of `l`. -/
theorem pyRstrip_pre (l : List Char) : pyRstrip l <+: l := by
  refine ⟨(l.reverse.takeWhile pyIsSpace).reverse, ?_⟩
  rw [pyRstrip, ← List.reverse_append, List.takeWhile_append_dropWhile, List.reverse_reverse]

/-- A non-empty prefix has the same optional head as the whole list. -/
theorem head_eq_of_pre {s l : List Char} (h : s <+: l) (hs : s ≠ []) :
    l.head? = s.head? := by
  obtain ⟨t, rfl⟩ := h
  cases s with
  | nil => exact absurd rfl hs
  | cons a as => simp

/-- `pyRstrip` is idempotent. -/
theorem pyRstrip_idem (l : List Char) : pyRstrip (pyRstrip l) = pyRstrip l := by
  calc pyRstrip (pyRstrip l)
      = ((pyRstrip l).reverse.dropWhile pyIsSpace).reverse := by simp only [pyRstrip]
    _ = ((l.reverse.dropWhile pyIsSpace).dropWhile pyIsSpace).reverse := by
        rw [pyRstrip_reverse]
    _ = (l.reverse.dropWhile pyIsSpace).reverse := by rw [dropWhile_idem]
    _ = pyRstrip l := by simp only [pyRstrip]

/-- `pyStrip` is idempotent: stripped text strips to itself. -/
theorem pyStrip_idem (l : List Char) : pyStrip (pyStrip l) = pyStrip l := by
  by_cases h : pyStrip l = []
  · rw [h]; rfl
  · have h1 : pyLstrip l ≠ [] := by
      intro he
      apply h
      simp only [pyStrip, he]
      rfl
    have hpre : pyStrip l <+: pyLstrip l := pyRstrip_pre (pyLstrip l)
    have hhead : (pyLstrip l).head? = (pyStrip l).head? := head_eq_of_pre hpre h
    have hc : ∃ c, (pyStrip l).head? = some c ∧ pyIsSpace c = false := by
      cases hc2 : (pyStrip l).head? with
      | none => rw [List.head?_eq_none_iff] at hc2; exact absurd hc2 h
      | some c =>
        refine ⟨c, rfl, ?_⟩
        have := List.head?_dropWhile_not pyIsSpace l
        rw [show l.dropWhile pyIsSpace = pyLstrip l from rfl, hhead, hc2] at this
        exact this
    obtain ⟨c, hc2, hcs⟩ := hc
    calc pyStrip (pyStrip l)
        = pyRstrip (pyLstrip (pyStrip l)) := rfl
      _ = pyRstrip (pyStrip l) := by
          rw [show pyLstrip (pyStrip l) = (pyStrip l).dropWhile pyIsSpace from rfl,
            dropWhile_eq_self_of_head hc2 hcs]
      _ = pyStrip l := by
          simp only [pyStrip]
          exact pyRstrip_idem (pyLstrip l)

/-- An element failing the predicate survives `dropWhile`. -/
theorem mem_dropWhile_of_neg {p : Char → Bool} {c : Char} :
    ∀ {l : List Char}, c ∈ l → p c = false → c ∈ l.dropWhile p
  | a :: as, hc, hp => by
    by_cases ha : p a
    · rw [List.dropWhile_cons_of_pos ha]
      rcases List.mem_cons.mp hc with rfl | h
      · rw [hp] at ha; exact absurd ha (by simp)
      · exact mem_dropWhile_of_neg h hp
    · rw [List.dropWhile_cons_of_neg ha]; exact hc

/-- A list containing a non-whitespace character does not strip to empty. -/
theorem pyStrip_ne_nil_of_mem {l : List Char} {c : Char}
    (hc : c ∈ l) (hs : pyIsSpace c = false) : pyStrip l ≠ [] := by
  have h1 : c ∈ pyLstrip l := mem_dropWhile_of_neg hc hs
  have h2 : c ∈ pyStrip l := by
    simp only [pyStrip, pyRstrip]
    rw [List.mem_reverse]
    exact mem_dropWhile_of_neg (List.mem_reverse.mpr h1) hs
  intro he
  rw [he] at h2
  exact absurd h2 (List.not_mem_nil c)

/-- `pyRstrip` commutes with a non-whitespace head. -/
theorem pyRstrip_cons_of_neg {c : Char} (hc : pyIsSpace c = false) (cs : List Char) :
    pyRstrip (c :: cs) = c :: pyRstrip cs := by
  simp only [pyRstrip, List.reverse_cons]
  rw [List.dropWhile_append]
  by_cases h : cs.reverse.dropWhile pyIsSpace = []
  · simp [h, hc]
  · simp [h]

/-! ### Title extraction (claim C8, amended) -/

/-- C8 (amended): the extracted title is the trimmed capture of the first
match, at any line start, of one hash, one or more whitespace characters
(possibly including line breaks, so the capture may lie on a later line),
then non-newline text.  When the pattern matches nowhere the fallback is
returned unchanged, and a position where the hash is followed by another hash
never starts a match, so `##`/`###` headings never start a title match. -/
theorem c8_title_extraction :
    (∀ (content fallback : String), titleSearch content.data = none →
        extract_title content fallback = fallback) ∧
    (∀ cs : List Char, titleMatchAt ('#' :: '#' :: cs) = none) := by
  constructor
  · intro content fallback h
    simp [extract_title, h]
  · intro cs
    have h1 : pyIsSpace '#' = false := rfl
    simp [titleMatchAt, List.takeWhile_cons, h1]

/-- Witness for `c8_title_extraction`: a document with no hash line keeps the
fallback title. -/
theorem c8_title_extraction_witness :
    extract_title ("no heading here") ("FB") = ("FB") :=
  c8_title_extraction.1 ("no heading here") ("FB") (by rfl)

/-! ### Tags defaulting (claim C2, amended) -/

/-- C2 (amended): the record's `tags` field defaults to the empty list when
the header has no `tags` key and otherwise is the frontmatter value verbatim;
a scalar declaration therefore produces a bare scalar, not a list. -/
theorem c2_tags_default_verbatim (content fb : String) (fm : Metadata)
    (h : parse_frontmatter content = Except.ok fm) :
    Except.map (fun r => r.tags) (parse_markdown content fb) =
      Except.ok ((lookupKey fm ("tags")).getD (FieldValue.listVal [])) := by
  simp only [parse_markdown]
  rw [h]
  rfl

/-- Witness for `c2_tags_default_verbatim` at a header with an integer-valued
`tags` key. -/
theorem c2_tags_default_verbatim_witness :
    Except.map (fun r => r.tags) (parse_markdown ("---\ntags: 5\n---") ("f")) =
      Except.ok ((lookupKey [(("tags" : String), FieldValue.intVal 5)] ("tags")).getD
        (FieldValue.listVal [])) :=
  c2_tags_default_verbatim ("---\ntags: 5\n---") ("f")
    [(("tags" : String), FieldValue.intVal 5)] (by rfl)

/-! ### Header detection (claim C5, amended) -/

/-- The closing scan fails exactly when the text contains no newline followed
by three hyphens. -/
theorem findClose_eq_none_iff (cs : List Char) :
    findClose cs = none ↔ ¬ ((['\n', '-', '-', '-'] : List Char) <:+: cs) := by
  induction cs with
  | nil => simp [findClose]
  | cons c cs ih =>
    rw [findClose]
    by_cases hp : (['\n', '-', '-', '-'] : List Char).isPrefixOf (c :: cs)
    · rw [if_pos hp]
      have hp2 : (['\n', '-', '-', '-'] : List Char) <+: c :: cs := by simpa using hp
      exact iff_of_false (by simp) (not_not_intro hp2.isInfix)
    · rw [if_neg hp]
      have hp2 : ¬ ((['\n', '-', '-', '-'] : List Char) <+: c :: cs) := by simpa using hp
      rw [Option.map_eq_none', ih, List.infix_cons_iff, or_iff_right hp2]

/-- C5 (amended): whenever the document does not begin with the four
characters `---` and newline, or no newline followed by `---` occurs after
them, `parse_frontmatter` returns the empty mapping (so a non-empty mapping
requires exactly that shape; the closing line need only begin with `---`). -/
theorem c5_no_header_empty (content : String) (h : fmHeaderShape content = false) :
    parse_frontmatter content = Except.ok [] := by
  have hc : fmCapture content.data = none := by
    rw [fmCapture]
    by_cases hp : (['-', '-', '-', '\n'] : List Char).isPrefixOf content.data
    · rw [if_pos hp]
      rw [fmHeaderShape, hp] at h
      simp only [Bool.true_and, decide_eq_false_iff_not] at h
      exact (findClose_eq_none_iff _).mpr h
    · exact if_neg hp
  rw [parse_frontmatter, hc]

/-- Witness for `c5_no_header_empty`: a document with no delimited header
parses to the empty mapping. -/
theorem c5_no_header_empty_witness :
    parse_frontmatter ("just text, no header") = Except.ok [] :=
  c5_no_header_empty ("just text, no header") (by rfl)

/-! ### List-item lines (claim C3, amended) -/

/-- Whitespace characters are not word characters. -/
theorem pyIsSpace_not_word (c : Char) (h : pyIsSpace c = true) :
    pyIsWordChar c = false := by
  revert h
  rw [pyIsSpace]
  simp only [Bool.or_eq_true, beq_iff_eq]
  rintro (((((rfl | rfl) | rfl) | rfl) | rfl) | rfl) <;> decide

/-- A line accepted by the list-item pattern begins with whitespace, so the
key-value pattern, which needs a word character first, rejects it. -/
theorem keyValueCapture_none_of_listItem {line cap : List Char}
    (h : listItemCapture line = some cap) : keyValueCapture line = none := by
  by_cases h1 : line.takeWhile pyIsSpace = []
  · rw [listItemCapture, if_pos h1] at h
    exact absurd h (by simp)
  · cases line with
    | nil => exact absurd rfl h1
    | cons a as =>
      have ha : pyIsSpace a = true := by
        by_contra hna
        exact h1 (List.takeWhile_cons_of_neg (by simpa using hna))
      have haw : pyIsWordChar a = false := pyIsSpace_not_word a ha
      rw [keyValueCapture, if_pos (List.takeWhile_cons_of_neg (by simp [haw]))]

/-- C3 (amended): a frontmatter line whose rstripped form matches the
list-item pattern (one-or-more whitespace, hyphen, one-or-more whitespace,
text) is appended to the current list key's list when one is set, and is
silently dropped when none is set; an unindented line beginning with a hyphen
never matches the pattern (its required leading whitespace is missing) and is
silently dropped whatever the state. -/
theorem c3_list_item_lines :
    (∀ (m : Metadata) (k : String) (raw cap : List Char),
        listItemCapture (pyRstrip raw) = some cap →
        processLine ⟨m, some k⟩ raw =
          Except.map (fun m2 => FMState.mk m2 (some k))
            (appendItem m k (String.mk (pyStrip cap)))) ∧
    (∀ (st : FMState) (raw cap : List Char),
        listItemCapture (pyRstrip raw) = some cap → st.currentListKey = none →
        processLine st raw = Except.ok st) ∧
    (∀ (st : FMState) (rest : List Char),
        processLine st ('-' :: rest) = Except.ok st) := by
  refine ⟨?_, ?_, ?_⟩
  · intro m k raw cap h
    have hne : pyRstrip raw ≠ [] := by
      intro he
      rw [he] at h
      exact absurd h (by simp [listItemCapture])
    simp only [processLine]
    rw [if_neg hne, h]
  · intro st raw cap h hck
    obtain ⟨m, ck⟩ := st
    simp only at hck
    subst hck
    have hne : pyRstrip raw ≠ [] := by
      intro he
      rw [he] at h
      exact absurd h (by simp [listItemCapture])
    simp only [processLine]
    rw [if_neg hne, h, processKeyValue, keyValueCapture_none_of_listItem h]
  · intro st rest
    have hr : pyRstrip ('-' :: rest) = '-' :: pyRstrip rest :=
      pyRstrip_cons_of_neg (by decide) rest
    have h1 : listItemCapture ('-' :: pyRstrip rest) = none := by
      rw [listItemCapture, if_pos (List.takeWhile_cons_of_neg (by decide))]
    have h2 : keyValueCapture ('-' :: pyRstrip rest) = none := by
      rw [keyValueCapture, if_pos (List.takeWhile_cons_of_neg (by decide))]
    simp only [processLine, hr]
    rw [if_neg (by simp), h1, processKeyValue, h2]

/-- Witness for `c3_list_item_lines`: the indented line hyphen-space-a is
appended under an active `tags` key and dropped without one. -/
theorem c3_list_item_lines_witness :
    processLine ⟨[], some ("tags")⟩ [' ', '-', ' ', 'a'] =
      Except.map (fun m2 => FMState.mk m2 (some ("tags")))
        (appendItem [] ("tags") (String.mk (pyStrip ['a']))) ∧
    processLine ⟨[], none⟩ [' ', '-', ' ', 'a'] = Except.ok ⟨[], none⟩ :=
  ⟨c3_list_item_lines.1 [] ("tags") [' ', '-', ' ', 'a'] ['a'] (by rfl),
   c3_list_item_lines.2.1 ⟨[], none⟩ [' ', '-', ' ', 'a'] ['a'] (by rfl) rfl⟩

/-! ### Ingredient cleanliness (claim C9) -/

/-- Every string produced by the cleaning loop is non-empty, equal to its own
strip, and the result of the checkbox/bullet stripping pipeline on some line. -/
theorem cleanLines_good :
    ∀ (ls : List (List Char)) (e : String), e ∈ cleanLines ls →
      e.data ≠ [] ∧ pyStrip e.data = e.data ∧
        ∃ raw, e.data = pyStrip (stripBullet (stripCheckbox raw))
  | [], e, he => by simp [cleanLines] at he
  | line :: rest, e, he => by
    simp only [cleanLines] at he
    by_cases h3 : pyStrip (stripBullet (stripCheckbox line)) = []
    · rw [if_pos h3] at he
      exact cleanLines_good rest e he
    · rw [if_neg h3] at he
      rcases List.mem_cons.mp he with rfl | hmem
      · refine ⟨by simpa using h3, ?_, line, rfl⟩
        simpa using pyStrip_idem (stripBullet (stripCheckbox line))
      · exact cleanLines_good rest e hmem

/-- C9: every element of the ingredients list of any document is a non-empty
string equal to its own whitespace-trim, obtained by stripping a leading
checkbox marker and then a leading plain bullet from some line; in particular
no empty or whitespace-only entries appear. -/
theorem c9_ingredients_invariant (content : String) (e : String)
    (he : e ∈ extract_ingredients content) :
    e.data ≠ [] ∧ pyStrip e.data = e.data ∧
      ∃ raw, e.data = pyStrip (stripBullet (stripCheckbox raw)) := by
  simp only [extract_ingredients] at he
  cases hs : ingSearch content.data with
  | none => rw [hs] at he; exact absurd he (by simp)
  | some cap => rw [hs] at he; exact cleanLines_good _ e he

/-- Witness for `c9_ingredients_invariant` on a one-item document. -/
theorem c9_ingredients_invariant_witness :
    ("Salt" : String).data ≠ [] ∧
      pyStrip ("Salt" : String).data = ("Salt" : String).data ∧
      ∃ raw, ("Salt" : String).data = pyStrip (stripBullet (stripCheckbox raw)) :=
  c9_ingredients_invariant ("## Ingredients\n- Salt") ("Salt") (by decide)

/-! ### Frontmatter list invariant (claim C10) -/

/-- Membership after `setKey` comes from the old mapping or is the new value. -/
theorem mem_setKey {m : Metadata} {k : String} {v : FieldValue}
    {p : String × FieldValue} (h : p ∈ setKey m k v) : p ∈ m ∨ p.2 = v := by
  induction m with
  | nil =>
    rw [setKey] at h
    rcases List.mem_singleton.mp h with rfl
    right
    rfl
  | cons a rest ih =>
    obtain ⟨k1, v1⟩ := a
    rw [setKey] at h
    by_cases hk : k1 = k
    · rw [if_pos hk] at h
      rcases List.mem_cons.mp h with rfl | hm
      · right; rfl
      · left; exact List.mem_cons_of_mem _ hm
    · rw [if_neg hk] at h
      rcases List.mem_cons.mp h with rfl | hm
      · left; exact List.mem_cons_self _ _
      · rcases ih hm with hm2 | hv
        · left; exact List.mem_cons_of_mem _ hm2
        · right; exact hv

/-- Successful lookup yields a member of the mapping under the looked-up key. -/
theorem lookupKey_mem {m : Metadata} {k : String} {v : FieldValue}
    (h : lookupKey m k = some v) : (k, v) ∈ m := by
  induction m with
  | nil => simp [lookupKey] at h
  | cons a rest ih =>
    obtain ⟨k1, v1⟩ := a
    rw [lookupKey] at h
    by_cases hk : k1 = k
    · rw [if_pos hk] at h
      have hv : v1 = v := by injection h
      subst hv
      subst hk
      exact List.mem_cons_self _ _
    · rw [if_neg hk] at h
      exact List.mem_cons_of_mem _ (ih h)

/-- A capture of the list-item pattern on an rstripped line strips to a
non-empty string (its last character is not whitespace) and is stable under
stripping. -/
theorem listItemCapture_good {raw cap : List Char}
    (h : listItemCapture (pyRstrip raw) = some cap) :
    pyStrip cap ≠ [] ∧ pyStrip (pyStrip cap) = pyStrip cap := by
  refine ⟨?_, pyStrip_idem cap⟩
  rw [listItemCapture] at h
  split at h
  · exact absurd h (by simp)
  · rename_i h1
    split at h
    · exact absurd h (by simp)
    · rename_i c r hd
      split at h
      case isFalse => exact absurd h (by simp)
      case isTrue hc =>
        split at h
        case isTrue => exact absurd h (by simp)
        case isFalse h2 =>
          have hcap : r.dropWhile pyIsSpace = cap := by injection h
          have hrne : r ≠ [] := by
            intro hre
            rw [hre] at h2
            exact h2 rfl
          have hsuf : (c :: r) <:+ pyRstrip raw := by
            rw [← hd]
            exact List.dropWhile_suffix pyIsSpace
          have hLne : pyRstrip raw ≠ [] := hsuf.ne_nil (by simp)
          cases hh : (pyRstrip raw).reverse.head? with
          | none =>
            rw [List.head?_eq_none_iff, List.reverse_eq_nil_iff] at hh
            exact absurd hh hLne
          | some d =>
            have hd0 : pyIsSpace d = false := by
              have hnot := List.head?_dropWhile_not pyIsSpace raw.reverse
              rw [← pyRstrip_reverse, hh] at hnot
              exact hnot
            have hgl : (c :: r).reverse.head? = some d := by
              obtain ⟨u, hu⟩ := hsuf
              rw [← hu, List.reverse_append] at hh
              cases hrr : (c :: r).reverse with
              | nil => simp at hrr
              | cons x xs =>
                rw [hrr] at hh
                simpa using hh
            have hdr : d ∈ r := by
              rw [List.reverse_cons] at hgl
              cases hrr : r.reverse with
              | nil =>
                rw [List.reverse_eq_nil_iff] at hrr
                exact absurd hrr hrne
              | cons x xs =>
                rw [hrr] at hgl
                simp only [List.cons_append, List.head?_cons,
                  Option.some.injEq] at hgl
                apply List.mem_reverse.mp
                rw [hrr, hgl]
                exact List.mem_cons_self _ _
            have hdcap : d ∈ cap := by
              rw [← hcap]
              exact mem_dropWhile_of_neg hdr hd0
            exact pyStrip_ne_nil_of_mem hdcap hd0

/-- The key-value block preserves the list-element invariant: it only ever
installs empty lists or scalars. -/
theorem processKeyValue_preserves {st st' : FMState} {line : List Char}
    (hgood : ∀ k l, (k, FieldValue.listVal l) ∈ st.metadata →
      ∀ e ∈ l, e.data ≠ [] ∧ pyStrip e.data = e.data)
    (h : processKeyValue st line = .ok st') :
    ∀ k l, (k, FieldValue.listVal l) ∈ st'.metadata →
      ∀ e ∈ l, e.data ≠ [] ∧ pyStrip e.data = e.data := by
  simp only [processKeyValue] at h
  split at h
  case h_2 => cases h; exact hgood
  case h_1 key valRaw hkv =>
    by_cases hval : pyStrip valRaw = []
    · rw [if_pos hval] at h
      cases h
      intro k1 l hm e he
      rcases mem_setKey hm with hm2 | hv2
      · exact hgood k1 l hm2 e he
      · simp only [FieldValue.listVal.injEq] at hv2
        subst hv2
        exact absurd he (by simp)
    · rw [if_neg hval] at h
      by_cases hdig : pyIsDigitStr (pyStrip valRaw) = true
      · rw [if_pos hdig] at h
        cases hint : pyInt (pyStrip valRaw) with
        | some n =>
          rw [hint] at h
          cases h
          intro k1 l hm e he
          rcases mem_setKey hm with hm2 | hv2
          · exact hgood k1 l hm2 e he
          · exact absurd hv2 (by simp)
        | none => rw [hint] at h; exact absurd h (by simp)
      · rw [if_neg hdig] at h
        cases h
        intro k1 l hm e he
        rcases mem_setKey hm with hm2 | hv2
        · exact hgood k1 l hm2 e he
        · exact absurd hv2 (by simp)

/-- A successful append preserves the invariant when the appended value is
non-empty and strip-stable. -/
theorem appendItem_good {m : Metadata} {k : String} {v : String} {m2 : Metadata}
    (hgood : ∀ k1 l, (k1, FieldValue.listVal l) ∈ m →
      ∀ e ∈ l, e.data ≠ [] ∧ pyStrip e.data = e.data)
    (hv : v.data ≠ [] ∧ pyStrip v.data = v.data)
    (h : appendItem m k v = .ok m2) :
    ∀ k1 l, (k1, FieldValue.listVal l) ∈ m2 →
      ∀ e ∈ l, e.data ≠ [] ∧ pyStrip e.data = e.data := by
  intro k1 l hm e he
  rw [appendItem] at h
  cases hl : lookupKey m k with
  | none =>
    rw [hl] at h
    cases h
    rcases mem_setKey hm with hm2 | hv2
    · exact hgood k1 l hm2 e he
    · simp only [FieldValue.listVal.injEq] at hv2
      subst hv2
      rcases List.mem_singleton.mp he with rfl
      exact hv
  | some w =>
    rw [hl] at h
    cases w with
    | listVal l0 =>
      cases h
      rcases mem_setKey hm with hm2 | hv2
      · exact hgood k1 l hm2 e he
      · simp only [FieldValue.listVal.injEq] at hv2
        subst hv2
        rcases List.mem_append.mp he with h1 | h1
        · exact hgood k l0 (lookupKey_mem hl) e h1
        · rcases List.mem_singleton.mp h1 with rfl
          exact hv
    | intVal n => exact absurd h (by simp)
    | strVal s => exact absurd h (by simp)

/-- One loop iteration preserves the list-element invariant. -/
theorem processLine_preserves {st st' : FMState} {raw : List Char}
    (hgood : ∀ k l, (k, FieldValue.listVal l) ∈ st.metadata →
      ∀ e ∈ l, e.data ≠ [] ∧ pyStrip e.data = e.data)
    (h : processLine st raw = .ok st') :
    ∀ k l, (k, FieldValue.listVal l) ∈ st'.metadata →
      ∀ e ∈ l, e.data ≠ [] ∧ pyStrip e.data = e.data := by
  simp only [processLine] at h
  by_cases hline : pyRstrip raw = []
  · rw [if_pos hline] at h
    cases h
    exact hgood
  · rw [if_neg hline] at h
    split at h
    · rename_i cap k0 hli hck
      have hv := listItemCapture_good hli
      cases ha : appendItem st.metadata k0 (String.mk (pyStrip cap)) with
      | ok mm =>
        rw [ha] at h
        cases h
        exact appendItem_good hgood (by simpa using hv) ha
      | error e => rw [ha] at h; exact absurd h (by simp [Except.map])
    · exact processKeyValue_preserves hgood h

/-- The whole loop preserves the list-element invariant. -/
theorem processLines_preserves :
    ∀ (ls : List (List Char)) (st st' : FMState),
      (∀ k l, (k, FieldValue.listVal l) ∈ st.metadata →
        ∀ e ∈ l, e.data ≠ [] ∧ pyStrip e.data = e.data) →
      processLines st ls = .ok st' →
      ∀ k l, (k, FieldValue.listVal l) ∈ st'.metadata →
        ∀ e ∈ l, e.data ≠ [] ∧ pyStrip e.data = e.data
  | [], _, _, hgood, h => by
    rw [processLines] at h
    cases h
    exact hgood
  | line :: ls, st, st', hgood, h => by
    rw [processLines] at h
    cases hp : processLine st line with
    | ok stm =>
      rw [hp] at h
      exact processLines_preserves ls stm st' (processLine_preserves hgood hp) h
    | error e => rw [hp] at h; exact absurd h (by simp)

/-- C10: every element of every list-valued field of the mapping returned by
`parse_frontmatter` is a non-empty string equal to its own whitespace-trim. -/
theorem c10_frontmatter_list_invariant (content : String) (fm : Metadata)
    (hp : parse_frontmatter content = Except.ok fm) :
    ∀ k l, (k, FieldValue.listVal l) ∈ fm →
      ∀ e ∈ l, e.data ≠ [] ∧ pyStrip e.data = e.data := by
  rw [parse_frontmatter] at hp
  split at hp
  · cases hp
    intro k l hm
    exact absurd hm (by simp)
  · rename_i fmText hc
    split at hp
    · rename_i st hpl
      cases hp
      exact processLines_preserves _ _ _ (by intro k l hm; exact absurd hm (by simp)) hpl
    · exact absurd hp (by simp)

/-- Witness for `c10_frontmatter_list_invariant` on a one-item tags list. -/
theorem c10_frontmatter_list_invariant_witness :
    ("a" : String).data ≠ [] ∧ pyStrip ("a" : String).data = ("a" : String).data :=
  c10_frontmatter_list_invariant ("---\ntags:\n - a\n---")
    [(("tags" : String), FieldValue.listVal [("a" : String)])] (by rfl)
    ("tags") [("a" : String)] (by decide) ("a") (by decide)

/-! ### Section capture bound (claim C7, amended) -/

/-- The capture of the section body is a prefix of the text it scans. -/
theorem captureUntil_pre : ∀ cs : List Char, captureUntilNlHashHash cs <+: cs
  | [] => by simp [captureUntilNlHashHash]
  | c :: cs => by
    rw [captureUntilNlHashHash]
    split
    · simp
    · obtain ⟨t, ht⟩ := captureUntil_pre cs
      exact ⟨t, by rw [List.cons_append, ht]⟩

/-- C7 (amended): for the concrete document the ingredients are exactly the
two cleaned entries with the instructions excluded; in general the captured
section text never contains a newline followed by two hashes, and the text
it was cut from is either consumed whole (end of document) or continues with
exactly such a newline-hash-hash boundary.  A hash-hash line sitting at the
very start of the section is inside the capture, not a boundary. -/
theorem c7_capture_bound :
    extract_ingredients ("## Ingredients\n- [ ] 2 eggs\n- Salt\n\n## Instructions\nMix") =
      [("2 eggs" : String), ("Salt" : String)] ∧
    ∀ cs : List Char,
      ¬ ((['\n', '#', '#'] : List Char) <:+: captureUntilNlHashHash cs) ∧
      (captureUntilNlHashHash cs = cs ∨
        ∃ rest, cs = captureUntilNlHashHash cs ++ '\n' :: '#' :: '#' :: rest) := by
  refine ⟨rfl, ?_⟩
  intro cs
  induction cs with
  | nil =>
    constructor
    · simp [captureUntilNlHashHash]
    · left; rfl
  | cons c cs ih =>
    rw [captureUntilNlHashHash]
    split
    case isTrue hp =>
      constructor
      · simp
      · right
        have hp2 : (['\n', '#', '#'] : List Char) <+: c :: cs := by simpa using hp
        obtain ⟨t, ht⟩ := hp2
        exact ⟨t, by rw [List.nil_append]; exact ht.symm⟩
    case isFalse hp =>
      obtain ⟨ih1, ih2⟩ := ih
      constructor
      · intro hinf
        rw [List.infix_cons_iff] at hinf
        rcases hinf with hpre | hinf2
        · apply hp
          have hccs : (c :: captureUntilNlHashHash cs) <+: c :: cs := by
            obtain ⟨t, ht⟩ := captureUntil_pre cs
            exact ⟨t, by rw [List.cons_append, ht]⟩
          have hfin := hpre.trans hccs
          simpa using hfin
        · exact ih1 hinf2
      · rcases ih2 with heq | ⟨rest, hrest⟩
        · left; rw [heq]
        · right
          exact ⟨rest, by rw [List.cons_append, ← hrest]⟩

/-- Witness for `c7_capture_bound` at a concrete one-line text. -/
theorem c7_capture_bound_witness :
    captureUntilNlHashHash ['x'] = ['x'] ∨
      ∃ rest, ['x'] = captureUntilNlHashHash ['x'] ++ '\n' :: '#' :: '#' :: rest :=
  (c7_capture_bound.2 ['x']).2

/-! ### Section trigger (claim C4, amended) -/

/-- An element of a drop of a suffix also lies in the same-depth drop of the
enclosing list. -/
theorem mem_drop_of_suffix {x : Char} {t cs : List Char} (n : Nat)
    (h : t <:+ cs) (hx : x ∈ t.drop n) : x ∈ cs.drop n := by
  obtain ⟨u, rfl⟩ := h
  have h2 : x ∈ (u ++ t).drop (u.length + n) := by
    rw [← List.drop_drop, List.drop_left]
    exact hx
  exact List.drop_subset_drop_left _ (Nat.le_add_left n u.length) h2

/-- Searching for the first case-insensitive occurrence of the literal and
then checking for a later newline is the same as asking for any occurrence
with a later newline: a newline after a later occurrence is also after the
first one. -/
theorem findSuffixCI_newline_any (rest : List Char) :
    (findSuffixCI ingredientsPat rest).elim false
        (fun t => (t.drop ingredientsPat.length).any (fun d => d = '\n')) =
      rest.tails.any (fun t => ciPrefixOf ingredientsPat t &&
        (t.drop ingredientsPat.length).any (fun d => d = '\n')) := by
  induction rest with
  | nil => rfl
  | cons c cs ih =>
    rw [findSuffixCI, List.tails_cons, List.any_cons]
    by_cases hp : ciPrefixOf ingredientsPat (c :: cs) = true
    · rw [if_pos hp, hp, Bool.true_and]
      simp only [Option.elim]
      cases hany : ((c :: cs).drop ingredientsPat.length).any (fun d => d = '\n') with
      | true => simp [hany]
      | false =>
        rw [Bool.false_or]
        symm
        rw [List.any_eq_false]
        intro t ht f
        rw [List.mem_tails] at ht
        simp only [Bool.and_eq_true, List.any_eq_true, decide_eq_true_eq] at f
        obtain ⟨x, hx, rfl⟩ := f.2
        have hsuf : t <:+ c :: cs := ht.trans (List.suffix_cons c cs)
        have hmem := mem_drop_of_suffix ingredientsPat.length hsuf hx
        have : ((c :: cs).drop ingredientsPat.length).any (fun d => d = '\n') = true := by
          rw [List.any_eq_true]
          exact ⟨'\n', hmem, by simp⟩
        rw [hany] at this
        exact absurd this (by simp)
    · rw [if_neg hp]
      have hp2 : ciPrefixOf ingredientsPat (c :: cs) = false := by
        simpa using hp
      rw [ih, hp2, Bool.false_and, Bool.false_or]

/-- A single attempt of the section regex succeeds exactly when the position
check of the trigger condition holds there. -/
theorem ingMatchAt_isSome (s : List Char) :
    (ingMatchAt s).isSome = ingTriggerAt s := by
  match s with
  | [] => rfl
  | [c1] => rfl
  | [c1, c2] => rfl
  | c1 :: c2 :: c3 :: rest =>
    show (ingMatchAt (c1 :: c2 :: c3 :: rest)).isSome =
      ((c1 = '#' && c2 = '#' && pyIsSpace c3) &&
        rest.tails.any fun t =>
          ciPrefixOf ingredientsPat t &&
            (t.drop ingredientsPat.length).any (fun d => d = '\n'))
    rw [ingMatchAt]
    by_cases hcond : c1 = '#' ∧ c2 = '#' ∧ pyIsSpace c3
    · rw [if_pos hcond]
      have hb : (c1 = '#' && c2 = '#' && pyIsSpace c3) = true := by
        obtain ⟨h1, h2, h3⟩ := hcond
        simp [h1, h2, h3]
      rw [hb, Bool.true_and]
      have key := findSuffixCI_newline_any rest
      split
      next hf =>
        rw [hf, Option.elim_none] at key
        exact key
      next t hf =>
        rw [hf, Option.elim_some] at key
        split
        next hw =>
          rw [List.dropWhile_eq_nil_iff] at hw
          rw [← key]
          rw [show (Option.none : Option (List Char)).isSome = false from rfl]
          symm
          rw [List.any_eq_false]
          intro x hx
          have := hw x hx
          simpa using this
        next d after hw =>
          rw [← key, Option.isSome_some]
          have hdmem : d ∈ t.drop ingredientsPat.length := by
            have hmem2 : d ∈ (t.drop ingredientsPat.length).dropWhile
                (fun d => !(d = '\n')) := by
              rw [hw]
              exact List.mem_cons_self _ _
            exact List.IsSuffix.mem hmem2 (List.dropWhile_suffix _)
          have hd : d = '\n' := by
            have hnot := List.head?_dropWhile_not (fun d => !(d = '\n'))
              (t.drop ingredientsPat.length)
            rw [hw] at hnot
            simpa using hnot
          subst hd
          symm
          rw [List.any_eq_true]
          exact ⟨'\n', hdmem, by simp⟩
    · rw [if_neg hcond]
      have hb : (c1 = '#' && c2 = '#' && pyIsSpace c3) = false := by
        by_contra hbne
        apply hcond
        have hb2 : (c1 = '#' && c2 = '#' && pyIsSpace c3) = true := by
          cases hx : (c1 = '#' && c2 = '#' && pyIsSpace c3) with
          | true => rfl
          | false => exact absurd hx hbne
        simp only [Bool.and_eq_true, decide_eq_true_eq] at hb2
        exact ⟨hb2.1.1, hb2.1.2, hb2.2⟩
      rw [hb, Bool.false_and]
      rfl

/-- C4 (amended): the section search succeeds exactly when some position of
the document carries two hashes, a whitespace character, a later
case-insensitive occurrence of the literal `ingredients`, and a newline after
it — the position need not be a line start, so `### Ingredients` and a
mid-line `## Ingredients` also trigger extraction. -/
theorem c4_trigger_characterization :
    ∀ cs : List Char, (ingSearch cs).isSome = specIngTrigger cs := by
  intro cs
  induction cs with
  | nil => rfl
  | cons c cs ih =>
    rw [specIngTrigger, List.tails_cons, List.any_cons, ingSearch]
    rw [← ingMatchAt_isSome]
    cases hm : ingMatchAt (c :: cs) with
    | some cap => simp
    | none =>
      show (ingSearch cs).isSome = (none.isSome || cs.tails.any ingTriggerAt)
      rw [Option.isSome_none, Bool.false_or]
      rw [specIngTrigger] at ih
      exact ih
